import Mathlib

/-!
Shallow embedding of the spall-rs tracing library (src/lib.rs).

Bytes are modelled as `Nat` (each value < 256 where it matters), buffers and
files as `List Nat`.  The per-thread recorder `ThreadState` mirrors the Rust
struct `ThreadState`: the pair (`write_ptr`, `write_rem`) is modelled by the
used prefix `data` of the buffer (so `write_ptr - buffer = data.length`)
together with `write_rem`.  Calls to the timer (`now()`) and the results of
file writes are modelled by oracles carried in the state (`clk`/`cidx`,
`wres`/`widx`), consumed in the exact order the source performs those calls.
The IEEE-754 encoding of `t as f64` is an abstract 8-byte encoder `wenc`
carried in the state; theorems that need its width assume
`∀ t, (wenc t).length = 8`.  Ghost fields `events` (the emitted Begin/End
records) and `diags` (count of stderr diagnostics) record observable effects.
-/

/-- Little-endian bytes of a `u32` value (4 bytes). -/
def u32le (n : Nat) : List Nat :=
  [n % 256, n / 256 % 256, n / 256 ^ 2 % 256, n / 256 ^ 3 % 256]

/-- Little-endian bytes of a `u64` value (8 bytes). -/
def u64le (n : Nat) : List Nat :=
  [n % 256, n / 256 % 256, n / 256 ^ 2 % 256, n / 256 ^ 3 % 256,
   n / 256 ^ 4 % 256, n / 256 ^ 5 % 256, n / 256 ^ 6 % 256, n / 256 ^ 7 % 256]

/-- Discriminant of `EventType::Begin`. -/
def EventType.Begin : Nat := 3

/-- Discriminant of `EventType::End`. -/
def EventType.End : Nat := 4

/-- `size_of::<BeginEvent>()` for the packed Rust struct
`{ ty: u8, category: u8, pid: u32, tid: u32, when: f64, name_len: u8, args_len: u8 }`. -/
def sizeOfBeginEvent : Nat := 20

/-- `size_of::<EndEvent>()` for the packed Rust struct
`{ ty: u8, pid: u32, tid: u32, when: f64 }`. -/
def sizeOfEndEvent : Nat := 17

/-- Byte image of a packed `BeginEvent` with the `when` tick encoded by `wenc`
(the IEEE-754 little-endian image of `when as f64`).  `name_len` and
`args_len` are stored as `u8` (hence `% 256`). -/
def serializeBeginEvent (wenc : Nat → List Nat) (pid tid whenT name_len args_len : Nat) :
    List Nat :=
  [EventType.Begin, 0] ++ u32le pid ++ u32le tid ++ wenc whenT ++
    [name_len % 256, args_len % 256]

/-- Byte image of a packed `EndEvent`. -/
def serializeEndEvent (wenc : Nat → List Nat) (pid tid whenT : Nat) : List Nat :=
  [EventType.End] ++ u32le pid ++ u32le tid ++ wenc whenT

/-- The UTF-8 bytes of the synthetic scope name `"spall/flush"`. -/
def spallFlushName : List Nat :=
  [115, 112, 97, 108, 108, 47, 102, 108, 117, 115, 104]

/-- Tag of a ghost event record: which of Begin/End was pushed. -/
inductive Tag where
  | Begin
  | End
deriving DecidableEq

/-- Ghost record of one emitted event (tag plus the pid/tid/tick stored in it). -/
structure Ev where
  tag : Tag
  pid : Nat
  tid : Nat
  whenT : Nat
deriving DecidableEq

/-- The per-thread recorder state (Rust `ThreadState`), plus oracle and ghost
fields described in the module docstring. -/
structure ThreadState where
  pid : Nat
  tid : Nat
  /-- Bytes appended so far to the trace file through this thread's handle. -/
  file : List Nat
  /-- Used prefix of the buffer: `write_ptr - buffer = data.length`. -/
  data : List Nat
  buffer_size : Nat
  write_rem : Nat
  silent : Bool
  /-- Timer oracle: the value returned by the `cidx`-th call of `now()`. -/
  clk : Nat → Nat
  cidx : Nat
  /-- File-write oracle: result of the `widx`-th `file.write` call;
  `.ok n` means `n` bytes were written (`n <` length means a short write). -/
  wres : Nat → Except Unit Nat
  widx : Nat
  /-- IEEE-754 little-endian image of `t as f64` (8 bytes). -/
  wenc : Nat → List Nat
  /-- Ghost: the emitted Begin/End events, in emission order. -/
  events : List Ev
  /-- Ghost: number of stderr diagnostics emitted. -/
  diags : Nat

/-- One call of `now()`: returns the next clock value and advances the clock
index. -/
def ThreadState.now (s : ThreadState) : Nat × ThreadState :=
  (s.clk s.cidx, { s with cidx := s.cidx + 1 })

/-- `ThreadState::push_bytes`: copy `bytes` at the write cursor. -/
def ThreadState.push_bytes (s : ThreadState) (bytes : List Nat) : ThreadState :=
  { s with data := s.data ++ bytes, write_rem := s.write_rem - bytes.length }

/-- `ThreadState::push_begin_event`: append a packed `BeginEvent` (via
`push_as_bytes`) and return the cursor position of its first byte. -/
def ThreadState.push_begin_event (s : ThreadState) (whenT name_len args_len : Nat) :
    Nat × ThreadState :=
  let ptr := s.data.length
  let bytes := serializeBeginEvent s.wenc s.pid s.tid whenT name_len args_len
  (ptr, { s with
    data := s.data ++ bytes
    write_rem := s.write_rem - bytes.length
    events := s.events ++ [⟨Tag.Begin, s.pid, s.tid, whenT⟩] })

/-- `ThreadState::patch_begin_args_len`: overwrite the `args_len` byte
(`offset_of!(BeginEvent, args_len) = 19`) of a Begin record at cursor
position `beginPtr`. -/
def ThreadState.patch_begin_args_len (s : ThreadState) (beginPtr args_len : Nat) :
    ThreadState :=
  { s with data := s.data.set (beginPtr + 19) (args_len % 256) }

/-- `ThreadState::push_end_event`: append a packed `EndEvent`. -/
def ThreadState.push_end_event (s : ThreadState) (whenT : Nat) : ThreadState :=
  { s with
    data := s.data ++ serializeEndEvent s.wenc s.pid s.tid whenT
    write_rem := s.write_rem - (serializeEndEvent s.wenc s.pid s.tid whenT).length
    events := s.events ++ [⟨Tag.End, s.pid, s.tid, whenT⟩] }

/-- The successive `write_str` calls of the `Writer` in
`ThreadState::push_args`: each chunk is truncated to the remaining capacity
`rem` and the capacity decreases by the amount written. -/
def writeChunks (rem : Nat) (chunks : List (List Nat)) : List Nat :=
  match chunks with
  | [] => []
  | c :: cs =>
    let w := c.take (min c.length rem)
    w ++ writeChunks (rem - w.length) cs

/-- `ThreadState::push_args`: render the format chunks through a `Writer`
whose capacity is `min write_rem max_len`; advance the cursor by the number
of bytes written and return it. -/
def ThreadState.push_args (s : ThreadState) (max_len : Nat) (args : List (List Nat)) :
    Nat × ThreadState :=
  let written := writeChunks (min s.write_rem max_len) args
  (written.length,
   { s with data := s.data ++ written, write_rem := s.write_rem - written.length })

/-- `ThreadState::flush`: take `t0 = now()`, write the used prefix of the
buffer to the file (a failed write logs a diagnostic unless silent; a short
write appends only the written prefix), reset the cursor, then push the
synthetic `"spall/flush"` scope (Begin at `t0`, End at a second `now()`). -/
def ThreadState.flush (s : ThreadState) : ThreadState :=
  let p := s.now
  let t0 := p.1
  let s := p.2
  let res := s.wres s.widx
  let s := { s with widx := s.widx + 1 }
  let s :=
    match res with
    | .ok n => { s with file := s.file ++ s.data.take n }
    | .error _ => { s with diags := s.diags + (if s.silent then 0 else 1) }
  let s := { s with data := [], write_rem := s.buffer_size }
  let s := (s.push_begin_event t0 spallFlushName.length 0).2
  let s := s.push_bytes spallFlushName
  let q := s.now
  q.2.push_end_event q.1

/-- `ThreadState::reserve`: flush when fewer than `size` bytes remain. -/
def ThreadState.reserve (s : ThreadState) (size : Nat) : ThreadState :=
  if size > s.write_rem then s.flush else s

/-- A freshly created recorder (`ThreadState::init` on success): stubbed
`pid = 42`, `tid = 69`, empty buffer, `write_ptr = buffer`,
`write_rem = buffer_size`. -/
def ThreadState.fresh (buffer_size : Nat) (silent : Bool) (clk : Nat → Nat)
    (wres : Nat → Except Unit Nat) (wenc : Nat → List Nat) : ThreadState :=
  { pid := 42, tid := 69, file := [], data := [], buffer_size := buffer_size
    write_rem := buffer_size, silent := silent, clk := clk, cidx := 0
    wres := wres, widx := 0, wenc := wenc, events := [], diags := 0 }

/-- `impl Drop for TraceScope`: reserve room for an `EndEvent` and push it
with `now()`. -/
def dropScope (s : ThreadState) : ThreadState :=
  let s := s.reserve sizeOfEndEvent
  let p := s.now
  p.2.push_end_event p.1

/-- `trace_scope_impl(name)`: truncate the name to 255 bytes, reserve, push a
Begin with `args_len = 0`, append the truncated name. -/
def trace_scope_impl (name : List Nat) (s : ThreadState) : ThreadState :=
  let name_len := min name.length 255
  let s := s.reserve (sizeOfBeginEvent + name_len)
  let p := s.now
  let s := (p.2.push_begin_event p.1 name_len 0).2
  s.push_bytes (name.take name_len)

/-- `trace_scope_args_impl(name, args)`: like `trace_scope_impl` but reserve
255 extra bytes, render the arguments with `push_args(255, args)` and patch
the Begin's `args_len` byte with the rendered length. -/
def trace_scope_args_impl (name : List Nat) (args : List (List Nat))
    (s : ThreadState) : ThreadState :=
  let name_len := min name.length 255
  let s := s.reserve (sizeOfBeginEvent + name_len + 255)
  let p := s.now
  let r := p.2.push_begin_event p.1 name_len 0
  let s := r.2.push_bytes (name.take name_len)
  let a := s.push_args 255 args
  a.2.patch_begin_args_len r.1 a.1

/-! ## The initializer and the global context (`init` in src/lib.rs)

The filesystem is an association list from paths to byte contents.  `init`
is parametrised by the wall-clock microsecond value used for the `$`
substitution, the timer frequency `hz` (a rational, standing for the `f64`),
and an abstract 8-byte IEEE-754 encoder `enc8` for the `timestamp_unit`
field.  The effects of the call (opens, writes, canonicalize) are returned
as a list of `FsOp` so that frame claims can talk about them. -/

/-- A file path, as a list of characters. -/
abbrev FPath := List Char

/-- The filesystem: an association list from paths to file contents. -/
abbrev FS := List (FPath × List Nat)

/-- Contents of the file at `p`, if it exists. -/
def lookupFS (fs : FS) (p : FPath) : Option (List Nat) :=
  match fs with
  | [] => none
  | (q, v) :: rest => if q = p then some v else lookupFS rest p

/-- Replace (or create) the file at `p` with contents `v`. -/
def setFS (fs : FS) (p : FPath) (v : List Nat) : FS :=
  match fs with
  | [] => [(p, v)]
  | (q, w) :: rest => if q = p then (p, v) :: rest else (q, w) :: setFS rest p v

/-- One observable filesystem effect of `init`. -/
inductive FsOp where
  /-- An open with `create_new` semantics (the file must not pre-exist). -/
  | openNew (p : FPath)
  /-- An open with create-if-missing plus truncate semantics. -/
  | openTrunc (p : FPath)
  /-- A write of `bytes` to the file at `p`. -/
  | writeOp (p : FPath) (bytes : List Nat)
  /-- A `std::fs::canonicalize` of `p`. -/
  | canonicalizeOp (p : FPath)
deriving DecidableEq

/-- The Rust `GlobalState` published by `init`. -/
structure GlobalState where
  trace_path : FPath
  buffer_size : Nat
  silent : Bool
deriving DecidableEq

/-- `str::replace("$", sub)`: every occurrence of `'$'` is replaced by `sub`. -/
def replaceDollar (path : FPath) (sub : List Char) : FPath :=
  path.flatMap (fun c => if c = '$' then sub else [c])

/-- `unix.as_micros().to_string()`: the decimal digits of `n`. -/
def decimalOf (n : Nat) : List Char := Nat.toDigits 10 n

/-- The 32-byte `SpallHeader` image written by `init`:
`magic_header = 0x0BADF00D`, `version = 1`,
`timestamp_unit = 1_000_000 / hz` (as an `f64`, encoded by `enc8`),
`must_be_0 = 0`. -/
def headerBytes (enc8 : Rat → List Nat) (hz : Rat) : List Nat :=
  u64le 0x0BADF00D ++ u64le 1 ++ enc8 (1000000 / hz) ++ u64le 0

/-- `init(path)`.  Returns the `Result<bool>`, the new global state, the new
filesystem and the list of filesystem effects performed.  When the global
state is already present the call returns `Ok(false)` having touched
nothing.  Otherwise the path is `$`-substituted (with create-new semantics)
or used as-is (create + truncate), the file is opened, the header is
written, and the path is canonicalized (modelled as the identity) before the
global state is published. -/
def init (gs : Option GlobalState) (fs : FS) (timeMicros : Nat) (hz : Rat)
    (enc8 : Rat → List Nat) (path : FPath) :
    Except Unit Bool × Option GlobalState × FS × List FsOp :=
  match gs with
  | some g => (.ok false, some g, fs, [])
  | none =>
    if '$' ∈ path then
      let p := replaceDollar path (decimalOf timeMicros)
      if (lookupFS fs p).isSome then
        (.error (), none, fs, [FsOp.openNew p])
      else
        let h := headerBytes enc8 hz
        (.ok true, some ⟨p, 64 * 1024, false⟩, setFS (setFS fs p []) p h,
         [FsOp.openNew p, FsOp.writeOp p h, FsOp.canonicalizeOp p])
    else
      let h := headerBytes enc8 hz
      (.ok true, some ⟨path, 64 * 1024, false⟩, setFS (setFS fs path []) path h,
       [FsOp.openTrunc path, FsOp.writeOp path h, FsOp.canonicalizeOp path])

/-! ## Scoped runs

A user program on one thread is a forest of nested scopes, each scope being a
`trace_scope!` guard enclosing its children; Rust's scoping drops the guards
in LIFO order.  `runThread` runs the forest from a state and ends with the
final `Drop`-triggered flush of the recorder. -/

mutual
/-- One `trace_scope!(name)` guard and the statements nested inside it. -/
inductive Scope where
  | mk (name : List Nat) (children : ScopeList)
/-- A sequence of sibling scopes. -/
inductive ScopeList where
  | nil
  | cons (s : Scope) (rest : ScopeList)
end

mutual
/-- Run one scope: emit its Begin (`trace_scope_impl`), run the children,
then emit its End (the guard's `Drop`). -/
def runScope : Scope → ThreadState → ThreadState
  | .mk name children, s => dropScope (runScopes children (trace_scope_impl name s))
/-- Run a sequence of sibling scopes. -/
def runScopes : ScopeList → ThreadState → ThreadState
  | .nil, s => s
  | .cons sc rest, s => runScopes rest (runScope sc s)
end

/-- Run a whole thread: the scope forest, then the final flush performed by
`impl Drop for ThreadState`. -/
def runThread (l : ScopeList) (s : ThreadState) : ThreadState :=
  (runScopes l s).flush

/-- The tag sequence of a list of ghost events. -/
def tags (l : List Ev) : List Tag := l.map Ev.tag

/-- Balanced, properly nested (LIFO) Begin/End sequences: the Dyck words
over one bracket pair. -/
inductive Bal : List Tag → Prop
  | nil : Bal []
  | wrap {w} : Bal w → Bal (Tag.Begin :: w ++ [Tag.End])
  | app {a b} : Bal a → Bal b → Bal (a ++ b)

/-! ## Helper lemmas about the recorder operations -/

theorem serializeBeginEvent_length (wenc : Nat → List Nat) (pid tid t nl al : Nat)
    (h : (wenc t).length = 8) :
    (serializeBeginEvent wenc pid tid t nl al).length = sizeOfBeginEvent := by
  simp [serializeBeginEvent, u32le, h, sizeOfBeginEvent]

theorem serializeEndEvent_length (wenc : Nat → List Nat) (pid tid t : Nat)
    (h : (wenc t).length = 8) :
    (serializeEndEvent wenc pid tid t).length = sizeOfEndEvent := by
  simp [serializeEndEvent, u32le, h, sizeOfEndEvent]

theorem writeChunks_length_le (chunks : List (List Nat)) (rem : Nat) :
    (writeChunks rem chunks).length ≤ rem := by
  induction chunks generalizing rem with
  | nil => simp [writeChunks]
  | cons c cs ih =>
    rw [show writeChunks rem (c :: cs) =
          c.take (min c.length rem) ++
            writeChunks (rem - (c.take (min c.length rem)).length) cs from rfl,
        List.length_append]
    have h1 : (c.take (min c.length rem)).length ≤ rem := by
      simp only [List.length_take]
      omega
    have h2 := ih (rem - (c.take (min c.length rem)).length)
    omega

theorem flush_pid (s : ThreadState) : s.flush.pid = s.pid := by
  cases h : s.wres s.widx <;>
    simp [ThreadState.flush, ThreadState.now, ThreadState.push_begin_event,
      ThreadState.push_bytes, ThreadState.push_end_event, h]

theorem flush_tid (s : ThreadState) : s.flush.tid = s.tid := by
  cases h : s.wres s.widx <;>
    simp [ThreadState.flush, ThreadState.now, ThreadState.push_begin_event,
      ThreadState.push_bytes, ThreadState.push_end_event, h]

theorem flush_silent (s : ThreadState) : s.flush.silent = s.silent := by
  cases h : s.wres s.widx <;>
    simp [ThreadState.flush, ThreadState.now, ThreadState.push_begin_event,
      ThreadState.push_bytes, ThreadState.push_end_event, h]

theorem flush_buffer_size (s : ThreadState) : s.flush.buffer_size = s.buffer_size := by
  cases h : s.wres s.widx <;>
    simp [ThreadState.flush, ThreadState.now, ThreadState.push_begin_event,
      ThreadState.push_bytes, ThreadState.push_end_event, h]

theorem flush_clk (s : ThreadState) : s.flush.clk = s.clk := by
  cases h : s.wres s.widx <;>
    simp [ThreadState.flush, ThreadState.now, ThreadState.push_begin_event,
      ThreadState.push_bytes, ThreadState.push_end_event, h]

theorem flush_cidx (s : ThreadState) : s.flush.cidx = s.cidx + 2 := by
  cases h : s.wres s.widx <;>
    simp [ThreadState.flush, ThreadState.now, ThreadState.push_begin_event,
      ThreadState.push_bytes, ThreadState.push_end_event, h]

theorem flush_wres (s : ThreadState) : s.flush.wres = s.wres := by
  cases h : s.wres s.widx <;>
    simp [ThreadState.flush, ThreadState.now, ThreadState.push_begin_event,
      ThreadState.push_bytes, ThreadState.push_end_event, h]

theorem flush_wenc (s : ThreadState) : s.flush.wenc = s.wenc := by
  cases h : s.wres s.widx <;>
    simp [ThreadState.flush, ThreadState.now, ThreadState.push_begin_event,
      ThreadState.push_bytes, ThreadState.push_end_event, h]

theorem flush_events (s : ThreadState) :
    s.flush.events = s.events ++
      [⟨Tag.Begin, s.pid, s.tid, s.clk s.cidx⟩, ⟨Tag.End, s.pid, s.tid, s.clk (s.cidx + 1)⟩] := by
  cases h : s.wres s.widx <;>
    simp [ThreadState.flush, ThreadState.now, ThreadState.push_begin_event,
      ThreadState.push_bytes, ThreadState.push_end_event, h]

theorem flush_data (s : ThreadState) :
    s.flush.data =
      serializeBeginEvent s.wenc s.pid s.tid (s.clk s.cidx) spallFlushName.length 0 ++
        spallFlushName ++
        serializeEndEvent s.wenc s.pid s.tid (s.clk (s.cidx + 1)) := by
  cases h : s.wres s.widx <;>
    simp [ThreadState.flush, ThreadState.now, ThreadState.push_begin_event,
      ThreadState.push_bytes, ThreadState.push_end_event, h]

theorem flush_write_rem (s : ThreadState) (h8 : ∀ t, (s.wenc t).length = 8) :
    s.flush.write_rem = s.buffer_size - 48 := by
  cases h : s.wres s.widx <;>
    simp [ThreadState.flush, ThreadState.now, ThreadState.push_begin_event,
      ThreadState.push_bytes, ThreadState.push_end_event, h,
      serializeBeginEvent, serializeEndEvent, u32le, h8, spallFlushName] <;>
    omega

theorem flush_diags (s : ThreadState) :
    s.flush.diags = s.diags +
      (match s.wres s.widx with
       | .ok _ => 0
       | .error _ => if s.silent then 0 else 1) := by
  cases h : s.wres s.widx <;>
    simp [ThreadState.flush, ThreadState.now, ThreadState.push_begin_event,
      ThreadState.push_bytes, ThreadState.push_end_event, h]

theorem flush_file (s : ThreadState) :
    s.flush.file = s.file ++
      (match s.wres s.widx with
       | .ok n => s.data.take n
       | .error _ => []) := by
  cases h : s.wres s.widx <;>
    simp [ThreadState.flush, ThreadState.now, ThreadState.push_begin_event,
      ThreadState.push_bytes, ThreadState.push_end_event, h]

theorem reserve_pid (s : ThreadState) (n : Nat) : (s.reserve n).pid = s.pid := by
  unfold ThreadState.reserve
  split
  · exact flush_pid s
  · rfl

theorem reserve_tid (s : ThreadState) (n : Nat) : (s.reserve n).tid = s.tid := by
  unfold ThreadState.reserve
  split
  · exact flush_tid s
  · rfl

theorem reserve_silent (s : ThreadState) (n : Nat) : (s.reserve n).silent = s.silent := by
  unfold ThreadState.reserve
  split
  · exact flush_silent s
  · rfl

theorem reserve_buffer_size (s : ThreadState) (n : Nat) :
    (s.reserve n).buffer_size = s.buffer_size := by
  unfold ThreadState.reserve
  split
  · exact flush_buffer_size s
  · rfl

theorem reserve_clk (s : ThreadState) (n : Nat) : (s.reserve n).clk = s.clk := by
  unfold ThreadState.reserve
  split
  · exact flush_clk s
  · rfl

theorem reserve_wres (s : ThreadState) (n : Nat) : (s.reserve n).wres = s.wres := by
  unfold ThreadState.reserve
  split
  · exact flush_wres s
  · rfl

theorem reserve_wenc (s : ThreadState) (n : Nat) : (s.reserve n).wenc = s.wenc := by
  unfold ThreadState.reserve
  split
  · exact flush_wenc s
  · rfl

theorem reserve_events (s : ThreadState) (n : Nat) :
    ∃ u, (s.reserve n).events = s.events ++ u ∧
      (tags u = [] ∨ tags u = [Tag.Begin, Tag.End]) ∧
      ∀ e ∈ u, e.pid = s.pid ∧ e.tid = s.tid := by
  unfold ThreadState.reserve
  split
  · refine ⟨_, flush_events s, Or.inr rfl, ?_⟩
    intro e he
    simp only [List.mem_cons, List.not_mem_nil, or_false] at he
    rcases he with rfl | rfl
    · exact ⟨rfl, rfl⟩
    · exact ⟨rfl, rfl⟩
  · exact ⟨[], by simp, Or.inl rfl, by simp⟩

theorem trace_scope_impl_pid (name : List Nat) (s : ThreadState) :
    (trace_scope_impl name s).pid = s.pid := by
  simp [trace_scope_impl, ThreadState.now, ThreadState.push_begin_event,
    ThreadState.push_bytes, reserve_pid]

theorem trace_scope_impl_tid (name : List Nat) (s : ThreadState) :
    (trace_scope_impl name s).tid = s.tid := by
  simp [trace_scope_impl, ThreadState.now, ThreadState.push_begin_event,
    ThreadState.push_bytes, reserve_tid]

theorem trace_scope_impl_events (name : List Nat) (s : ThreadState) :
    ∃ u, (trace_scope_impl name s).events = s.events ++ u ∧
      (tags u = [Tag.Begin] ∨ tags u = [Tag.Begin, Tag.End, Tag.Begin]) ∧
      ∀ e ∈ u, e.pid = s.pid ∧ e.tid = s.tid := by
  obtain ⟨u, hu, hc, hm⟩ := reserve_events s (sizeOfBeginEvent + min name.length 255)
  have hp := reserve_pid s (sizeOfBeginEvent + min name.length 255)
  have ht := reserve_tid s (sizeOfBeginEvent + min name.length 255)
  refine ⟨u ++ [⟨Tag.Begin, s.pid, s.tid,
      (s.reserve (sizeOfBeginEvent + min name.length 255)).clk
        (s.reserve (sizeOfBeginEvent + min name.length 255)).cidx⟩], ?_, ?_, ?_⟩
  · simp [trace_scope_impl, ThreadState.now, ThreadState.push_begin_event,
      ThreadState.push_bytes, hu, hp, ht]
  · rcases hc with h | h <;> simp [tags, h] at * <;> simp [h]
  · intro e he
    rcases List.mem_append.1 he with h | h
    · exact hm e h
    · rcases List.mem_singleton.1 h with rfl
      exact ⟨rfl, rfl⟩

theorem dropScope_pid (s : ThreadState) : (dropScope s).pid = s.pid := by
  simp [dropScope, ThreadState.now, ThreadState.push_end_event, reserve_pid]

theorem dropScope_tid (s : ThreadState) : (dropScope s).tid = s.tid := by
  simp [dropScope, ThreadState.now, ThreadState.push_end_event, reserve_tid]

theorem dropScope_events (s : ThreadState) :
    ∃ v, (dropScope s).events = s.events ++ v ∧
      (tags v = [Tag.End] ∨ tags v = [Tag.Begin, Tag.End, Tag.End]) ∧
      ∀ e ∈ v, e.pid = s.pid ∧ e.tid = s.tid := by
  obtain ⟨u, hu, hc, hm⟩ := reserve_events s sizeOfEndEvent
  have hp := reserve_pid s sizeOfEndEvent
  have ht := reserve_tid s sizeOfEndEvent
  refine ⟨u ++ [⟨Tag.End, s.pid, s.tid,
      (s.reserve sizeOfEndEvent).clk (s.reserve sizeOfEndEvent).cidx⟩], ?_, ?_, ?_⟩
  · simp [dropScope, ThreadState.now, ThreadState.push_end_event, hu, hp, ht]
  · rcases hc with h | h <;> simp [tags, h] at * <;> simp [h]
  · intro e he
    rcases List.mem_append.1 he with h | h
    · exact hm e h
    · rcases List.mem_singleton.1 h with rfl
      exact ⟨rfl, rfl⟩

theorem bal_pair : Bal [Tag.Begin, Tag.End] := by
  have h := Bal.wrap (w := []) Bal.nil
  simpa using h

/-- Wrapping a balanced body in the Begin/End pair of one guard, with the
optional `spall/flush` pair that `reserve` may interleave before the Begin
and before the End, yields a balanced word. -/
theorem bal_compose (x y b : List Tag) (hb : Bal b)
    (hx : x = [Tag.Begin] ∨ x = [Tag.Begin, Tag.End, Tag.Begin])
    (hy : y = [Tag.End] ∨ y = [Tag.Begin, Tag.End, Tag.End]) :
    Bal (x ++ b ++ y) := by
  rcases hx with rfl | rfl <;> rcases hy with rfl | rfl
  · exact Bal.wrap hb
  · have h := Bal.wrap (Bal.app hb bal_pair)
    simpa [List.append_assoc] using h
  · have h := Bal.app bal_pair (Bal.wrap hb)
    simpa [List.append_assoc] using h
  · have h := Bal.app bal_pair (Bal.wrap (Bal.app hb bal_pair))
    simpa [List.append_assoc] using h

/-- In a balanced word, every `Begin` is followed by a later `End`. -/
theorem bal_begin_has_end {w : List Tag} (hb : Bal w) :
    ∀ i, w.get? i = some Tag.Begin → ∃ j, i < j ∧ w.get? j = some Tag.End := by
  induction hb with
  | nil =>
    intro i h
    simp at h
  | @wrap w hw ih =>
    intro i h
    match i with
    | 0 =>
      refine ⟨w.length + 1, by omega, ?_⟩
      have : (w ++ [Tag.End]).get? w.length = some Tag.End := by
        rw [List.get?_append_right (Nat.le_refl _)]
        simp
      simpa using this
    | Nat.succ k =>
      have hk : (w ++ [Tag.End]).get? k = some Tag.Begin := by simpa using h
      by_cases hlt : k < w.length
      · have hw2 : w.get? k = some Tag.Begin := by
          rwa [List.get?_append hlt] at hk
        obtain ⟨j, hij, hj⟩ := ih k hw2
        have hjlt : j < w.length := by
          by_contra hge
          rw [List.get?_eq_none.2 (Nat.le_of_not_lt hge)] at hj
          exact Option.noConfusion hj
        refine ⟨j + 1, by omega, ?_⟩
        have : (w ++ [Tag.End]).get? j = some Tag.End := by
          rwa [List.get?_append hjlt]
        simpa using this
      · exfalso
        rw [List.get?_append_right (Nat.le_of_not_lt hlt)] at hk
        rcases Nat.lt_or_ge (k - w.length) 1 with h1 | h1
        · interval_cases h2 : k - w.length
          · simp at hk
        · rw [List.get?_eq_none.2 (by simpa using h1)] at hk
          exact Option.noConfusion hk
  | @app a b ha hb2 iha ihb =>
    intro i h
    by_cases hlt : i < a.length
    · have ha2 : a.get? i = some Tag.Begin := by
        rwa [List.get?_append hlt] at h
      obtain ⟨j, hij, hj⟩ := iha i ha2
      have hjlt : j < a.length := by
        by_contra hge
        rw [List.get?_eq_none.2 (Nat.le_of_not_lt hge)] at hj
        exact Option.noConfusion hj
      exact ⟨j, hij, by rwa [List.get?_append hjlt]⟩
    · have hb3 : b.get? (i - a.length) = some Tag.Begin := by
        rwa [List.get?_append_right (Nat.le_of_not_lt hlt)] at h
      obtain ⟨j, hij, hj⟩ := ihb (i - a.length) hb3
      refine ⟨a.length + j, by omega, ?_⟩
      rw [List.get?_append_right (by omega)]
      simpa using hj

mutual
/-- Events appended by one scope form a balanced word whose records carry the
thread's pid/tid, and the run preserves pid/tid. -/
theorem runScope_shape (sc : Scope) (s : ThreadState) :
    (runScope sc s).pid = s.pid ∧ (runScope sc s).tid = s.tid ∧
    ∃ t, (runScope sc s).events = s.events ++ t ∧ Bal (tags t) ∧
      ∀ e ∈ t, e.pid = s.pid ∧ e.tid = s.tid := by
  match sc with
  | .mk name children =>
    obtain ⟨u, hu, hcu, hmu⟩ := trace_scope_impl_events name s
    have hp1 := trace_scope_impl_pid name s
    have ht1 := trace_scope_impl_tid name s
    obtain ⟨hp2, ht2, tb, htb, hbal, hmb⟩ :=
      runScopes_shape children (trace_scope_impl name s)
    obtain ⟨v, hv, hcv, hmv⟩ :=
      dropScope_events (runScopes children (trace_scope_impl name s))
    have hp3 := dropScope_pid (runScopes children (trace_scope_impl name s))
    have ht3 := dropScope_tid (runScopes children (trace_scope_impl name s))
    have hrun : runScope (.mk name children) s =
        dropScope (runScopes children (trace_scope_impl name s)) := rfl
    refine ⟨?_, ?_, u ++ tb ++ v, ?_, ?_, ?_⟩
    · rw [hrun, hp3, hp2, hp1]
    · rw [hrun, ht3, ht2, ht1]
    · rw [hrun, hv, htb, hu]
      simp [List.append_assoc]
    · have h := bal_compose (tags u) (tags v) (tags tb) hbal hcu hcv
      simpa [tags] using h
    · intro e he
      rcases List.mem_append.1 he with h | h
      · rcases List.mem_append.1 h with h2 | h2
        · exact hmu e h2
        · have h3 := hmb e h2
          rw [hp1, ht1] at h3
          exact h3
      · have h3 := hmv e h
        rw [hp2, ht2, hp1, ht1] at h3
        exact h3

/-- Events appended by a sequence of sibling scopes form a balanced word. -/
theorem runScopes_shape (l : ScopeList) (s : ThreadState) :
    (runScopes l s).pid = s.pid ∧ (runScopes l s).tid = s.tid ∧
    ∃ t, (runScopes l s).events = s.events ++ t ∧ Bal (tags t) ∧
      ∀ e ∈ t, e.pid = s.pid ∧ e.tid = s.tid := by
  match l with
  | .nil => exact ⟨rfl, rfl, [], by simp [runScopes], Bal.nil, by simp⟩
  | .cons sc rest =>
    obtain ⟨hp1, ht1, t1, h1, b1, m1⟩ := runScope_shape sc s
    obtain ⟨hp2, ht2, t2, h2, b2, m2⟩ := runScopes_shape rest (runScope sc s)
    have hrun : runScopes (.cons sc rest) s = runScopes rest (runScope sc s) := rfl
    refine ⟨?_, ?_, t1 ++ t2, ?_, ?_, ?_⟩
    · rw [hrun, hp2, hp1]
    · rw [hrun, ht2, ht1]
    · rw [hrun, h2, h1]
      simp [List.append_assoc]
    · simpa [tags] using Bal.app b1 b2
    · intro e he
      rcases List.mem_append.1 he with h | h
      · exact m1 e h
      · have h3 := m2 e h
        rw [hp1, ht1] at h3
        exact h3
end

/-! ## Claim theorems -/

/-- A sample timer oracle for concrete evaluations. -/
def sampleClk : Nat → Nat := fun i => i

/-- A sample write oracle (every write succeeds, writing 0 bytes). -/
def sampleWres : Nat → Except Unit Nat := fun _ => Except.ok 0

/-- A sample 8-byte `f64` encoder for concrete evaluations. -/
def sampleWenc : Nat → List Nat := fun _ => [0, 0, 0, 0, 0, 0, 0, 0]

/-- A sample recorder fresh state with the default 64 KiB buffer. -/
def sampleState : ThreadState :=
  ThreadState.fresh 65536 false sampleClk sampleWres sampleWenc

/-- C1: in any single-thread run (a forest of `trace_scope` guards, closed by
the recorder's final Drop flush), the emitted event sequence is balanced and
properly nested (LIFO), every event carries the thread's pid/tid (stubbed
42/69), and every Begin is followed by a later End with the same pid/tid. -/
theorem C1_per_thread_events_balanced (l : ScopeList) (buffer_size : Nat)
    (silent : Bool) (clk : Nat → Nat) (wres : Nat → Except Unit Nat)
    (wenc : Nat → List Nat) :
    let t := (runThread l (ThreadState.fresh buffer_size silent clk wres wenc)).events
    Bal (tags t) ∧ (∀ e ∈ t, e.pid = 42 ∧ e.tid = 69) ∧
      ∀ i e, t.get? i = some e → e.tag = Tag.Begin →
        ∃ j e2, i < j ∧ t.get? j = some e2 ∧ e2.tag = Tag.End ∧
          e2.pid = e.pid ∧ e2.tid = e.tid := by
  intro t
  obtain ⟨hp, ht, tb, htb, hbal, hmb⟩ :=
    runScopes_shape l (ThreadState.fresh buffer_size silent clk wres wenc)
  set s1 := runScopes l (ThreadState.fresh buffer_size silent clk wres wenc) with hs1
  have hev : t = tb ++
      [⟨Tag.Begin, s1.pid, s1.tid, s1.clk s1.cidx⟩,
       ⟨Tag.End, s1.pid, s1.tid, s1.clk (s1.cidx + 1)⟩] := by
    show (runThread l (ThreadState.fresh buffer_size silent clk wres wenc)).events = _
    rw [show runThread l (ThreadState.fresh buffer_size silent clk wres wenc) =
          s1.flush from rfl, flush_events, htb]
    simp [ThreadState.fresh]
  have hmem : ∀ e ∈ t, e.pid = 42 ∧ e.tid = 69 := by
    intro e he
    rw [hev] at he
    rcases List.mem_append.1 he with h | h
    · have h2 := hmb e h
      simpa [ThreadState.fresh] using h2
    · simp only [List.mem_cons, List.not_mem_nil, or_false] at h
      rcases h with rfl | rfl
      · simp [hp, ht, ThreadState.fresh]
      · simp [hp, ht, ThreadState.fresh]
  have hbal2 : Bal (tags t) := by
    rw [hev]
    have h := Bal.app hbal bal_pair
    simpa [tags] using h
  refine ⟨hbal2, hmem, ?_⟩
  intro i e hie hbeg
  have htag : (tags t).get? i = some Tag.Begin := by
    rw [tags, List.get?_map, hie]
    simp [hbeg]
  obtain ⟨j, hij, hj⟩ := bal_begin_has_end hbal2 i htag
  rw [tags, List.get?_map] at hj
  obtain ⟨e2, he2, htag2⟩ := Option.map_eq_some'.1 hj
  have hm1 := hmem e (List.get?_mem hie)
  have hm2 := hmem e2 (List.get?_mem he2)
  exact ⟨j, e2, hij, he2, htag2, by omega, by omega⟩

theorem C1_witness :
    (let t := (runThread (ScopeList.cons (Scope.mk [] ScopeList.nil) ScopeList.nil)
        (ThreadState.fresh 65536 false sampleClk sampleWres sampleWenc)).events
     Bal (tags t) ∧ (∀ e ∈ t, e.pid = 42 ∧ e.tid = 69) ∧
      ∀ i e, t.get? i = some e → e.tag = Tag.Begin →
        ∃ j e2, i < j ∧ t.get? j = some e2 ∧ e2.tag = Tag.End ∧
          e2.pid = e.pid ∧ e2.tid = e.tid) :=
  C1_per_thread_events_balanced (ScopeList.cons (Scope.mk [] ScopeList.nil)
    ScopeList.nil) 65536 false sampleClk sampleWres sampleWenc

/-- C4: after `flush()` the buffer contains exactly one synthetic scope: a
Begin record with name `"spall/flush"` (`name_len` 11, `args_len` 0) whose
`when` is the `t0 = now()` captured at the start of flush (clock index
`cidx`), the 11 name bytes, then an End record whose `when` is the `now()`
taken after the file write (clock index `cidx + 1`), and nothing else. -/
theorem C4_flush_synthetic_scope (s : ThreadState) :
    s.flush.data =
      serializeBeginEvent s.wenc s.pid s.tid (s.clk s.cidx) spallFlushName.length 0 ++
        spallFlushName ++
        serializeEndEvent s.wenc s.pid s.tid (s.clk (s.cidx + 1)) ∧
    spallFlushName.length = 11 :=
  ⟨flush_data s, rfl⟩

/-- C5 (amended): `flush()` emits a diagnostic exactly when the file write
returns an error `Err(_)` and the silent flag is unset — a short (partial)
`Ok(n)` write is not diagnosed — and in every case the write cursor is reset
to the buffer start and the remaining counter to the buffer size before the
synthetic flush scope is pushed, so the post-flush buffer holds exactly that
scope and `write_rem = buffer_size - 48`. -/
theorem C5_flush_diagnostics_and_reset (s : ThreadState)
    (h8 : ∀ t, (s.wenc t).length = 8) :
    ((∃ er, s.wres s.widx = .error er) → s.silent = false →
      s.flush.diags = s.diags + 1) ∧
    ((∃ er, s.wres s.widx = .error er) → s.silent = true →
      s.flush.diags = s.diags) ∧
    ((∃ n, s.wres s.widx = .ok n) → s.flush.diags = s.diags) ∧
    s.flush.data =
      serializeBeginEvent s.wenc s.pid s.tid (s.clk s.cidx) spallFlushName.length 0 ++
        spallFlushName ++
        serializeEndEvent s.wenc s.pid s.tid (s.clk (s.cidx + 1)) ∧
    s.flush.write_rem = s.buffer_size - 48 := by
  refine ⟨?_, ?_, ?_, flush_data s, flush_write_rem s h8⟩
  · rintro ⟨er, her⟩ hsil
    rw [flush_diags]
    simp [her, hsil]
  · rintro ⟨er, her⟩ hsil
    rw [flush_diags]
    simp [her, hsil]
  · rintro ⟨n, hn⟩
    rw [flush_diags]
    simp [hn]

/-- A recorder holding 2 buffered bytes whose next file write reports a short
write `Ok(1)`, with the silent flag unset. -/
def shortWriteState : ThreadState :=
  { sampleState with
      data := [1, 2]
      write_rem := 65534
      wres := fun _ => Except.ok 1 }

/-- C5 counterexample: a partial write (`Ok(1)` returned for 2 buffered
bytes) with silent unset emits no diagnostic, refuting the claim that a
partial write is diagnosed. -/
theorem C5_counterexample :
    shortWriteState.silent = false ∧
    shortWriteState.wres shortWriteState.widx = Except.ok 1 ∧
    shortWriteState.data.length = 2 ∧
    shortWriteState.flush.diags = shortWriteState.diags :=
  ⟨rfl, rfl, rfl, rfl⟩

/-- A recorder whose next file write fails. -/
def errorWriteState : ThreadState :=
  { sampleState with wres := fun _ => Except.error () }

theorem C5_witness :
    errorWriteState.flush.diags = errorWriteState.diags + 1 :=
  (C5_flush_diagnostics_and_reset errorWriteState (fun _ => rfl)).1 ⟨(), rfl⟩ rfl

/-- C3 (amended): `reserve(n)` guarantees at least `n` free bytes for every
`n ≤ buffer_size - 48`, where 48 bytes is the synthetic `spall/flush` scope
(`BeginEvent` 20 + name 11 + `EndEvent` 17) that `flush()` leaves in the
buffer; the bound `n ≤ buffer_size` of the claim is not sufficient. -/
theorem C3_reserve_guarantee (s : ThreadState) (n : Nat)
    (h8 : ∀ t, (s.wenc t).length = 8) (hn : n ≤ s.buffer_size - 48) :
    n ≤ (s.reserve n).write_rem := by
  unfold ThreadState.reserve
  split
  · rw [flush_write_rem s h8]
    exact hn
  · next h => exact Nat.le_of_not_lt h

theorem C3_witness : 100 ≤ (sampleState.reserve 100).write_rem :=
  C3_reserve_guarantee sampleState 100 (fun _ => rfl) (by decide)

/-- A recorder with the default 64 KiB buffer completely full
(`write_rem = 0`). -/
def fullBufferState : ThreadState :=
  { sampleState with data := List.replicate 65536 0, write_rem := 0 }

/-- C3 counterexample: with a full 64 KiB buffer, `reserve(65536)` (a request
that satisfies the claim's precondition `n ≤ buffer_size`) flushes and then
has only `65536 - 48 = 65488` free bytes, so `write_rem ≥ n` fails. -/
theorem C3_counterexample :
    65536 ≤ fullBufferState.buffer_size ∧
    (fullBufferState.reserve 65536).write_rem < 65536 := by
  constructor
  · exact Nat.le_refl _
  · decide

/-- C7: a name longer than 255 bytes is recorded with `name_len = 255` and
exactly its first 255 bytes; moreover running `trace_scope` with the long
name produces the very same state as running it with the truncated name, so
bytes 255.. of the input can never reach the buffer or any later event. -/
theorem C7_name_truncation (name : List Nat) (s : ThreadState)
    (h : 255 < name.length) :
    trace_scope_impl name s = trace_scope_impl (name.take 255) s ∧
    (trace_scope_impl name s).data =
      (s.reserve (sizeOfBeginEvent + 255)).data ++
        serializeBeginEvent s.wenc s.pid s.tid
          ((s.reserve (sizeOfBeginEvent + 255)).clk
            (s.reserve (sizeOfBeginEvent + 255)).cidx) 255 0 ++
        name.take 255 := by
  have hm : min name.length 255 = 255 := by omega
  have hm2 : min (name.take 255).length 255 = 255 := by
    rw [List.length_take]
    omega
  have e1 : min (List.take 255 name).length 255 = min name.length 255 := by
    rw [List.length_take]
    omega
  constructor
  · simp only [trace_scope_impl]
    rw [e1, hm, List.take_take, Nat.min_self]
  · simp [trace_scope_impl, hm, ThreadState.now, ThreadState.push_begin_event,
      ThreadState.push_bytes, reserve_wenc, reserve_pid, reserve_tid,
      List.append_assoc]

theorem C7_witness :
    trace_scope_impl (List.replicate 256 7) sampleState =
      trace_scope_impl ((List.replicate 256 7).take 255) sampleState :=
  (C7_name_truncation (List.replicate 256 7) sampleState
    (by rw [List.length_replicate]; omega)).1

theorem list_set_append_right {α : Type} (xs ys : List α) (n : Nat) (a : α) :
    (xs ++ ys).set (xs.length + n) a = xs ++ ys.set n a := by
  induction xs with
  | nil => simp
  | cons x xs ih =>
    have h : (x :: xs).length + n = (xs.length + n) + 1 := by
      simp only [List.length_cons]
      omega
    rw [List.cons_append, h]
    show x :: (xs ++ ys).set (xs.length + n) a = (x :: xs) ++ ys.set n a
    rw [ih, List.cons_append]

theorem list_set_19 (wv : List Nat) (hw : wv.length = 8) (x y z z2 c p q : Nat)
    (R : List Nat) :
    (([x, y] ++ u32le p ++ u32le q ++ wv ++ [z, z2]) ++ R).set 19 c
      = ([x, y] ++ u32le p ++ u32le q ++ wv ++ [z, c]) ++ R := by
  rcases wv with _ | ⟨a1, _ | ⟨a2, _ | ⟨a3, _ | ⟨a4, _ | ⟨a5, _ | ⟨a6, _ | ⟨a7,
    _ | ⟨a8, _ | ⟨a9, tl⟩⟩⟩⟩⟩⟩⟩⟩⟩ <;>
    simp only [List.length_cons, List.length_nil] at hw <;>
    first
      | rfl
      | omega

/-- C8: `trace_scope(name, args)` records, after the reserve, a Begin whose
`args_len` byte has been patched to the number of bytes actually rendered,
followed by the truncated name and the rendered argument bytes; the rendered
length is at most `min(remaining, 255) ≤ 255`.  Here `nl` is the truncated
name length, `s1` the state after the reserve, and `A` the bytes the
formatter renders into the buffer. -/
theorem C8_args_render_and_patch (name : List Nat) (args : List (List Nat))
    (s : ThreadState) (h8 : ∀ t, (s.wenc t).length = 8)
    (nl : Nat) (s1 : ThreadState) (A : List Nat)
    (hnl : nl = min name.length 255)
    (hs1 : s1 = s.reserve (sizeOfBeginEvent + nl + 255))
    (hA : A = writeChunks (min (s1.write_rem - sizeOfBeginEvent - nl) 255) args) :
    (trace_scope_args_impl name args s).data =
      s1.data ++
        serializeBeginEvent s.wenc s.pid s.tid (s1.clk s1.cidx) nl A.length ++
        name.take nl ++ A ∧
    A.length ≤ 255 ∧
    A.length ≤ min (s1.write_rem - sizeOfBeginEvent - nl) 255 := by
  subst hA hs1 hnl
  have hwenc := reserve_wenc s (sizeOfBeginEvent + min name.length 255 + 255)
  have hpid := reserve_pid s (sizeOfBeginEvent + min name.length 255 + 255)
  have htid := reserve_tid s (sizeOfBeginEvent + min name.length 255 + 255)
  have hA2 := writeChunks_length_le args
    (min ((s.reserve (sizeOfBeginEvent + min name.length 255 + 255)).write_rem -
      sizeOfBeginEvent - min name.length 255) 255)
  refine ⟨?_, le_trans hA2 (Nat.min_le_right _ _), hA2⟩
  simp only [trace_scope_args_impl, ThreadState.now, ThreadState.push_begin_event,
    ThreadState.push_bytes, ThreadState.push_args, ThreadState.patch_begin_args_len]
  rw [hwenc, hpid, htid]
  rw [serializeBeginEvent_length s.wenc s.pid s.tid _ (min name.length 255) 0 (h8 _)]
  rw [show (List.take (min name.length 255) name).length = min name.length 255 by
        rw [List.length_take]
        omega]
  rw [List.append_assoc ((s.reserve (sizeOfBeginEvent + min name.length 255 + 255)).data)]
  rw [List.append_assoc ((s.reserve (sizeOfBeginEvent + min name.length 255 + 255)).data)]
  rw [List.append_assoc (serializeBeginEvent s.wenc s.pid s.tid _ (min name.length 255) 0)]
  rw [list_set_append_right]
  simp only [serializeBeginEvent]
  rw [list_set_19 _ (h8 _)]
  simp [List.append_assoc]

theorem C8_witness :
    (writeChunks (min ((sampleState.reserve (sizeOfBeginEvent + 1 + 255)).write_rem -
        sizeOfBeginEvent - 1) 255) [[118, 61, 52, 50]]).length ≤ 255 :=
  (C8_args_render_and_patch [107] [[118, 61, 52, 50]] sampleState (fun _ => rfl)
    1 (sampleState.reserve (sizeOfBeginEvent + 1 + 255))
    (writeChunks (min ((sampleState.reserve (sizeOfBeginEvent + 1 + 255)).write_rem -
        sizeOfBeginEvent - 1) 255) [[118, 61, 52, 50]])
    rfl rfl rfl).2.1

/-- The recorder cursor invariant: used bytes plus remaining bytes equal the
buffer size, i.e. `(write_ptr - buffer) + write_rem = buffer_size`. -/
def WF (s : ThreadState) : Prop :=
  s.data.length + s.write_rem = s.buffer_size

/-- C10: the cursor invariant holds for a fresh recorder and is preserved by
`reserve`, `push_bytes`, the two `push_as_bytes` instances
(`push_begin_event`, `push_end_event`), `push_args` and `flush`, each under
its documented space precondition; it keeps the write cursor inside
`[buffer, buffer + buffer_size]`. -/
theorem C10_cursor_invariant :
    (∀ bs sil clk wres wenc, WF (ThreadState.fresh bs sil clk wres wenc)) ∧
    (∀ s n, WF s → (∀ t, (s.wenc t).length = 8) → 48 ≤ s.buffer_size →
      WF (s.reserve n)) ∧
    (∀ s bytes, WF s → bytes.length ≤ s.write_rem → WF (s.push_bytes bytes)) ∧
    (∀ s w nl al, WF s → (∀ t, (s.wenc t).length = 8) →
      sizeOfBeginEvent ≤ s.write_rem → WF (s.push_begin_event w nl al).2) ∧
    (∀ s w, WF s → (∀ t, (s.wenc t).length = 8) →
      sizeOfEndEvent ≤ s.write_rem → WF (s.push_end_event w)) ∧
    (∀ s m args, WF s → WF (s.push_args m args).2) ∧
    (∀ s, WF s → (∀ t, (s.wenc t).length = 8) → 48 ≤ s.buffer_size →
      WF s.flush) ∧
    (∀ s, WF s → s.data.length ≤ s.buffer_size) := by
  have hflush : ∀ s : ThreadState, WF s → (∀ t, (s.wenc t).length = 8) →
      48 ≤ s.buffer_size → WF s.flush := by
    intro s hwf h8 hbs
    have hd := flush_data s
    have hr := flush_write_rem s h8
    have hbsz := flush_buffer_size s
    have hlen : s.flush.data.length = 48 := by
      rw [hd]
      simp only [List.length_append,
        serializeBeginEvent_length s.wenc s.pid s.tid (s.clk s.cidx)
          spallFlushName.length 0 (h8 _),
        serializeEndEvent_length s.wenc s.pid s.tid (s.clk (s.cidx + 1)) (h8 _)]
      simp [spallFlushName, sizeOfBeginEvent, sizeOfEndEvent]
    unfold WF
    rw [hlen, hr, hbsz]
    omega
  refine ⟨?_, ?_, ?_, ?_, ?_, ?_, hflush, ?_⟩
  · intro bs sil clk wres wenc
    simp [WF, ThreadState.fresh]
  · intro s n hwf h8 hbs
    unfold ThreadState.reserve
    split
    · exact hflush s hwf h8 hbs
    · exact hwf
  · intro s bytes hwf hle
    unfold WF at *
    simp only [ThreadState.push_bytes, List.length_append]
    omega
  · intro s w nl al hwf h8 hle
    unfold WF at *
    simp only [ThreadState.push_begin_event, List.length_append,
      serializeBeginEvent_length s.wenc s.pid s.tid w nl al (h8 _)]
    omega
  · intro s w hwf h8 hle
    unfold WF at *
    simp only [ThreadState.push_end_event, List.length_append,
      serializeEndEvent_length s.wenc s.pid s.tid w (h8 _)]
    omega
  · intro s m args hwf
    have hle := writeChunks_length_le args (min s.write_rem m)
    unfold WF at *
    simp only [ThreadState.push_args, List.length_append]
    omega
  · intro s hwf
    unfold WF at hwf
    omega

theorem C10_witness : WF sampleState.flush :=
  C10_cursor_invariant.2.2.2.2.2.2.1 sampleState rfl (fun _ => rfl) (by decide)

theorem lookupFS_setFS (fs : FS) (p : FPath) (v : List Nat) :
    lookupFS (setFS fs p v) p = some v := by
  induction fs with
  | nil => simp [setFS, lookupFS]
  | cons kv rest ih =>
    obtain ⟨q, w⟩ := kv
    by_cases h : q = p <;> simp [setFS, lookupFS, h, ih]

/-- A sample 8-byte `f64` encoder for the header's `timestamp_unit`. -/
def sampleEnc8 : Rat → List Nat := fun _ => [0, 0, 0, 0, 0, 0, 0, 0]

/-- C2: whenever `init` publishes a global state (a successful first init),
the trace file at the published path holds exactly the 32-byte packed
little-endian header: u64 magic `0x0BADF00D`, u64 version `1`, the 8
IEEE-754 bytes of the f64 `1_000_000 / hz`, and a u64 zero. -/
theorem C2_header_bytes (fs : FS) (t : Nat) (hz : Rat) (enc8 : Rat → List Nat)
    (path : FPath) (h8 : ∀ q, (enc8 q).length = 8)
    (g : GlobalState) (r : Except Unit Bool) (fs2 : FS) (ops : List FsOp)
    (h : init none fs t hz enc8 path = (r, some g, fs2, ops)) :
    lookupFS fs2 g.trace_path =
      some (u64le 0x0BADF00D ++ u64le 1 ++ enc8 ((1000000 : Rat) / hz) ++ u64le 0) ∧
    (u64le 0x0BADF00D ++ u64le 1 ++ enc8 ((1000000 : Rat) / hz) ++ u64le 0).length
      = 32 := by
  constructor
  · simp only [init] at h
    split at h
    · split at h
      · simp at h
      · simp only [Prod.mk.injEq, Option.some.injEq] at h
        obtain ⟨h1, h2, h3, h4⟩ := h
        subst h2 h3
        exact lookupFS_setFS _ _ _
    · simp only [Prod.mk.injEq, Option.some.injEq] at h
      obtain ⟨h1, h2, h3, h4⟩ := h
      subst h2 h3
      exact lookupFS_setFS _ _ _
  · simp [u64le, h8]

theorem C2_witness :
    lookupFS (setFS (setFS [] ['a'] []) ['a'] (headerBytes sampleEnc8 1))
        (GlobalState.mk ['a'] 65536 false).trace_path =
      some (u64le 0x0BADF00D ++ u64le 1 ++ sampleEnc8 ((1000000 : Rat) / 1) ++
        u64le 0) :=
  (C2_header_bytes [] 0 1 sampleEnc8 ['a'] (fun _ => rfl)
    (GlobalState.mk ['a'] 65536 false) (Except.ok true)
    (setFS (setFS [] ['a'] []) ['a'] (headerBytes sampleEnc8 1))
    [FsOp.openTrunc ['a'], FsOp.writeOp ['a'] (headerBytes sampleEnc8 1),
     FsOp.canonicalizeOp ['a']] rfl).1

/-- C6: `init` returns `Ok(true)` on the first call (whenever it returns
`Ok` with no prior global state, the value is `true`) and `Ok(false)` on a
second call, and the second call performs no filesystem effect at all —
no open, no truncation, no write — leaving global state and the file
contents unchanged. -/
theorem C6_init_idempotent :
    (∀ fs t hz enc8 path (b : Bool) gs2 fs2 ops,
        init none fs t hz enc8 path = (.ok b, gs2, fs2, ops) → b = true) ∧
    (∀ g fs t hz enc8 path,
        init (some g) fs t hz enc8 path = (.ok false, some g, fs, [])) := by
  constructor
  · intro fs t hz enc8 path b gs2 fs2 ops h
    simp only [init] at h
    split at h
    · split at h
      · simp at h
      · simp only [Prod.mk.injEq, Except.ok.injEq] at h
        exact h.1.symm
    · simp only [Prod.mk.injEq, Except.ok.injEq] at h
      exact h.1.symm
  · intro g fs t hz enc8 path
    rfl

theorem C6_witness :
    (true = true) ∧
    init (some (GlobalState.mk ['a'] 65536 false)) [] 0 1 sampleEnc8 ['b'] =
      (.ok false, some (GlobalState.mk ['a'] 65536 false), [], []) :=
  ⟨C6_init_idempotent.1 [] 0 1 sampleEnc8 ['a'] true _ _ _ rfl,
   C6_init_idempotent.2 (GlobalState.mk ['a'] 65536 false) [] 0 1 sampleEnc8 ['b']⟩

/-- C9: when the path contains `$`, every `$` is replaced by the decimal
Unix-epoch microseconds and the file is opened create-new, so `init` fails
exactly when the substituted file already exists, and on success publishes
the substituted path; when the path has no `$`, `init` succeeds and the file
(created if missing, truncated if present) holds the header. -/
theorem C9_dollar_substitution (fs : FS) (t : Nat) (hz : Rat)
    (enc8 : Rat → List Nat) (path : FPath) :
    ('$' ∈ path →
      (((init none fs t hz enc8 path).1 = .error ()) ↔
        (lookupFS fs (replaceDollar path (decimalOf t))).isSome = true) ∧
      ((lookupFS fs (replaceDollar path (decimalOf t))).isSome = false →
        (init none fs t hz enc8 path).2.1 =
          some ⟨replaceDollar path (decimalOf t), 64 * 1024, false⟩ ∧
        lookupFS (init none fs t hz enc8 path).2.2.1
          (replaceDollar path (decimalOf t)) = some (headerBytes enc8 hz))) ∧
    ('$' ∉ path →
      (init none fs t hz enc8 path).1 = .ok true ∧
      lookupFS (init none fs t hz enc8 path).2.2.1 path =
        some (headerBytes enc8 hz)) := by
  constructor
  · intro hd
    by_cases hex : (lookupFS fs (replaceDollar path (decimalOf t))).isSome
    · constructor
      · simp [init, hd, hex]
      · intro hfalse
        rw [hex] at hfalse
        exact absurd hfalse (by simp)
    · constructor
      · simp [init, hd, hex]
      · intro _
        constructor
        · simp [init, hd, hex]
        · simp only [init, if_pos hd, Bool.not_eq_true] at *
          rw [if_neg (by simp [hex])]
          exact lookupFS_setFS _ _ _
  · intro hd
    constructor
    · simp [init, hd]
    · simp only [init, if_neg hd]
      exact lookupFS_setFS _ _ _

theorem C9_witness :
    (init none [(decimalOf 5, [1])] 5 1 sampleEnc8 ['$']).1 = .error () :=
  ((C9_dollar_substitution [(decimalOf 5, [1])] 5 1 sampleEnc8 ['$']).1
    (by simp)).1.mpr (by decide)
